import Mathlib

/-!
Verification of the Raft log-management core (`RaftLog` in `src/unnamed/part_000`).

The Go code is shallowly embedded: `uint64` values become `Nat` with explicit
wraparound (`% 2^64`) at the subtractions where the Go code can underflow,
Go slices become `List Entry` (a slice expression whose bound exceeds the
length is the panic case), and operations that can panic or hit the
`log.Fatal` path return `Option`, with `none` standing for the aborted call.

The `Storage` collaborator (TinyKV's storage engine) is not part of the
source under verification; it is modelled from the spec (sections 4.1, 6, 7).
-/

namespace Tkv

/-- One word of the uint64 arithmetic used by the Go code: `2 ^ 64`. -/
def U64 : Nat := 18446744073709551616

/-- uint64 subtraction with wraparound, as performed by the Go code on
`uint64` operands. -/
def u64sub (x y : Nat) : Nat := (x % U64 + (U64 - y % U64)) % U64

/-- A log entry (`pb.Entry`): a `uint64` index, a `uint64` term and an opaque
payload (modelled as a `Nat`). -/
structure Entry where
  index : Nat
  term : Nat
  data : Nat
deriving DecidableEq, Repr

/-- Pending-snapshot metadata (`pb.Snapshot.Metadata`): index and term. -/
structure Snapshot where
  index : Nat
  term : Nat
deriving DecidableEq, Repr

/-- Error sentinels recognised by the core (spec section 7):
`OutOfRange` for queries past `LastIndex()`, `Compacted` for indices that
predate retained history, `Unavailable` for storage-reported absence. -/
inductive Err where
  | OutOfRange
  | Compacted
  | Unavailable
deriving DecidableEq, Repr

deriving instance DecidableEq for Except

/-- `IsEmptySnap`: a pending snapshot is empty when absent or when its
metadata index is 0 (the sentinel). Modelled from the spec: the helper
itself lives outside `src/`. -/
def IsEmptySnap : Option Snapshot → Bool
  | none => true
  | some s => s.index == 0

/-- Modelled from the spec: the durable Storage collaborator (spec sections
4.1, 6).  It is characterised by the recovered hard-state commit index, its
first retained index, and the retained entries (contiguous from
`firstIdx`). The Storage implementation is not under `src/`. -/
structure Storage where
  commit : Nat
  firstIdx : Nat
  sents : List Entry
deriving DecidableEq, Repr

/-- Modelled from the spec: `Storage.LastIndex()` — the highest persisted
index; an empty storage with `firstIdx = 1` reports `0`. -/
def Storage.lastIdx (s : Storage) : Nat := s.firstIdx + s.sents.length - 1

/-- Modelled from the spec: `Storage.Term(i)` fails for indices outside the
retained window `[FirstIndex, LastIndex]`: indices that predate retained
history are `Compacted` (spec sections 7 and 8), indices past the last
persisted entry are `Unavailable`. -/
def Storage.term (s : Storage) (i : Nat) : Except Err Nat :=
  if i < s.firstIdx then .error .Compacted
  else if s.lastIdx < i then .error .Unavailable
  else
    match s.sents[i - s.firstIdx]? with
    | some e => .ok e.term
    | none => .error .Unavailable

/-- Modelled from the spec: `Storage.Entries(lo, hi)` — half-open range read
of retained entries; fails when `lo` predates retained history or `hi`
reaches past the persisted entries. -/
def Storage.entriesRange (s : Storage) (lo hi : Nat) : Except Err (List Entry) :=
  if lo < s.firstIdx then .error .Compacted
  else if s.lastIdx + 1 < hi then .error .Unavailable
  else .ok ((s.sents.take (hi - s.firstIdx)).drop (lo - s.firstIdx))

/-- The Log Core state (`RaftLog` struct, `part_000` lines 31-59). -/
structure RaftLog where
  storage : Storage
  committed : Nat
  applied : Nat
  stabled : Nat
  entries : List Entry
  pendingSnapshot : Option Snapshot
  snapIndex : Nat
deriving DecidableEq, Repr

/-- `newLog` (`part_000` lines 63-88): recover the core from Storage.  The
Go error-defaulting branches (`firstIndex = 1`, `lastindex = 0` when Storage
reports nothing) are folded into the Storage model, which always reports its
bounds (an empty storage has `firstIdx = 1`, `lastIdx = 0`).
`applied := firstIndex - 1` is uint64 arithmetic in Go. -/
def newLog (s : Storage) : RaftLog :=
  let firstIndex := s.firstIdx
  let lastindex := s.lastIdx
  let ents := (s.entriesRange firstIndex (lastindex + 1)).toOption.getD []
  { storage := s
    committed := s.commit
    applied := u64sub firstIndex 1
    stabled := lastindex
    entries := ents
    pendingSnapshot := none
    snapIndex := firstIndex }

/-- `maybeCompact` (`part_000` lines 93-108): if Storage's first index has
advanced past `snapIndex`, drop the compacted prefix of `entries`
(`l.entries[index-l.snapIndex:]`; `none` when that Go slice expression is
out of bounds, i.e. would panic) and advance `snapIndex`. The Go
`make`/`copy` reallocation is a memory detail with no effect on the value. -/
def RaftLog.maybeCompact (l : RaftLog) : Option RaftLog :=
  let index := l.storage.firstIdx
  if l.snapIndex < index then
    if l.entries.isEmpty then some { l with snapIndex := index }
    else if index - l.snapIndex ≤ l.entries.length then
      some { l with entries := l.entries.drop (index - l.snapIndex), snapIndex := index }
    else none
  else some l

/-- `FirstIndex` (`part_000` lines 143-149): first resident index, or
`Storage.FirstIndex() - 1` (uint64 arithmetic) when the suffix is empty. -/
def RaftLog.FirstIndex (l : RaftLog) : Nat :=
  match l.entries with
  | [] => u64sub l.storage.firstIdx 1
  | e :: _ => e.index

/-- `LastIndex` (`part_000` lines 152-163): the max of the last resident
entry's index (or Storage's last index when the suffix is empty) and the
pending snapshot's index, if a non-empty snapshot is pending. -/
def RaftLog.LastIndex (l : RaftLog) : Nat :=
  let snapIdx : Nat :=
    match l.pendingSnapshot with
    | none => 0
    | some s => if s.index == 0 then 0 else s.index
  match l.entries.getLast? with
  | some e => max e.index snapIdx
  | none => max l.storage.lastIdx snapIdx

/-- The storage-delegation tail of `Term` (`part_000` lines 189-198):
translate `ErrUnavailable` through the pending snapshot when one exists. -/
def RaftLog.termStorage (l : RaftLog) (i : Nat) : Except Err Nat :=
  match l.storage.term i with
  | .error .Unavailable =>
    match l.pendingSnapshot with
    | none => .error .Unavailable
    | some s =>
      if s.index == 0 then .error .Unavailable
      else if i == s.index then .ok s.term
      else .error .Compacted
  | r => r

/-- `Term` (`part_000` lines 177-199): `OutOfRange` past `LastIndex()`,
in-memory lookup for unstable resident indices, storage delegation with
pending-snapshot translation otherwise. -/
def RaftLog.Term (l : RaftLog) (i : Nat) : Except Err Nat :=
  if l.LastIndex < i then .error .OutOfRange
  else
    match l.entries with
    | [] => l.termStorage i
    | e0 :: rest =>
      if hm : l.stabled < i ∧ e0.index ≤ i ∧ i - e0.index < (e0 :: rest).length then
        .ok (((e0 :: rest).get ⟨i - e0.index, hm.2.2⟩).term)
      else l.termStorage i

/-- `LastTerm` (`part_000` lines 166-169): term of `LastIndex()`, `0` on
error. -/
def RaftLog.LastTerm (l : RaftLog) : Nat :=
  match l.Term l.LastIndex with
  | .ok t => t
  | .error _ => 0

/-- `isUpToDate` (`part_000` lines 171-173). -/
def RaftLog.isUpToDate (l : RaftLog) (index term : Nat) : Bool :=
  l.LastTerm < term || (term == l.LastTerm && l.LastIndex ≤ index)

/-- The Go expression `x - l.FirstIndex() + 1` evaluated in uint64
arithmetic (used by `unstableEntries` and `nextEnts`). -/
def idxOff (x first : Nat) : Nat := (u64sub x first + 1) % U64

/-- `unstableEntries` (`part_000` lines 111-121): the suffix entries past
`stabled`, with the defensive bound check on the uint64 offset
`stabled - FirstIndex() + 1` (the Go `< 0` half of the check is vacuous for
unsigned values). -/
def RaftLog.unstableEntries (l : RaftLog) : List Entry :=
  match l.entries with
  | [] => []
  | e0 :: rest =>
    let k := idxOff l.stabled l.FirstIndex
    if (e0 :: rest).length < k then []
    else (e0 :: rest).drop k

/-- `nextEnts` (`part_000` lines 124-139): resident entries with
`applied < index ≤ committed`.  Offsets are uint64 arithmetic; the Go
`committed-FirstIndex()+1 < 0` test is vacuous for unsigned values.  `none`
is the panic of the Go slice `l.entries[ka:kc]` when `ka > kc`. -/
def RaftLog.nextEnts (l : RaftLog) : Option (List Entry) :=
  match l.entries with
  | [] => some []
  | e0 :: rest =>
    let ka := idxOff l.applied l.FirstIndex
    let kc := idxOff l.committed l.FirstIndex
    if l.LastIndex < ka then some []
    else if kc ≤ (e0 :: rest).length then
      if ka ≤ kc then some (((e0 :: rest).take kc).drop ka) else none
    else some []

/-- `findentries` (`part_000` lines 212-229): stitch the Storage read for
`[lo, min(hi, stabled+1))` (its error is discarded by the Go code, yielding
no entries) with the in-memory slice for the part past `stabled`.  `none` is
the Go panic: `l.entries[0]` on an empty suffix, or slice bounds out of
range (offsets are uint64 arithmetic). -/
def RaftLog.findentries (l : RaftLog) (lo hi : Nat) : Option (List Entry) :=
  let stablePart : List Entry :=
    if lo ≤ l.stabled then (l.storage.entriesRange lo (min hi (l.stabled + 1))).toOption.getD []
    else []
  if l.stabled + 1 < hi then
    match l.entries with
    | [] => none
    | e0 :: rest =>
      let a := u64sub (max (l.stabled + 1) lo) e0.index
      let b := u64sub hi e0.index
      if a ≤ b ∧ b ≤ (e0 :: rest).length then
        some (stablePart ++ ((e0 :: rest).take b).drop a)
      else none
  else some stablePart

/-- `AppendEntries` (`part_000` lines 232-249): truncate-or-replace
conflict resolution, then append the batch; `stabled` drops to
`min(stabled, start-1)` (uint64 arithmetic).  `none` covers the Go panics:
an empty batch (`ents[0]`) and the truncation slice
`l.entries[0 : start-e0]` reaching past the suffix length. -/
def RaftLog.AppendEntries (l : RaftLog) (ents : List Entry) : Option RaftLog :=
  match ents with
  | [] => none
  | e :: _ =>
    let start := e.index
    let stabled' := min l.stabled (u64sub start 1)
    match l.entries with
    | [] => some { l with stabled := stabled', entries := ents }
    | e0 :: rest =>
      if start ≤ e0.index then
        some { l with stabled := stabled', entries := ents }
      else if start - e0.index ≤ (e0 :: rest).length then
        some { l with stabled := stabled',
                      entries := (e0 :: rest).take (start - e0.index) ++ ents }
      else none

/-- `appliedTo` (`part_000` lines 201-209): `0` is a no-op sentinel;
outside `[applied, committed]` the Go code calls `log.Fatal`, modelled as
`none` — the fatal path, distinguishable from the recoverable `Err`
results. -/
def RaftLog.appliedTo (l : RaftLog) (i : Nat) : Option RaftLog :=
  if i = 0 then some l
  else if l.committed < i ∨ i < l.applied then none
  else some { l with applied := i }

/-- `commitTo` (`part_000` lines 251-259): raise `committed` to `commit`
only when `committed < commit ≤ LastIndex()`. -/
def RaftLog.commitTo (l : RaftLog) (commit : Nat) : RaftLog :=
  if l.committed < commit then
    if l.LastIndex < commit then l
    else { l with committed := commit }
  else l

/-- `hasEntriesSince` (`part_000` lines 262-270). -/
def RaftLog.hasEntriesSince (l : RaftLog) (index : Nat) : Bool :=
  let offset := max (index + 1) l.storage.firstIdx
  l.committed + 1 > offset

/-- `entriesSince` (`part_000` lines 273-284). -/
def RaftLog.entriesSince (l : RaftLog) (index : Nat) : Option (List Entry) :=
  let offset := max (index + 1) l.storage.firstIdx
  let high := l.committed + 1
  if offset < high then l.findentries offset high
  else some []

/-- Boolean check that a list of entries is index-contiguous starting at
`n` (`entries[k].index = n + k`). -/
def contigFrom : Nat → List Entry → Bool
  | _, [] => true
  | n, e :: rest => e.index == n && contigFrom (n + 1) rest

/-- First index of a batch or suffix (`0` for an empty list). -/
def headIdxL : List Entry → Nat
  | [] => 0
  | e :: _ => e.index

/-- Modelled from the spec (sections 3 and 4.1): a well-formed recovered
Storage — indices start at 1, the recovered commit index lies between
`firstIndex - 1` and `lastIndex`, the retained entries are contiguous from
`firstIdx`, and all indices fit in uint64. -/
def Storage.WF (s : Storage) : Bool :=
  decide (1 ≤ s.firstIdx) && decide (s.firstIdx - 1 ≤ s.commit) &&
    decide (s.commit ≤ s.lastIdx) && contigFrom s.firstIdx s.sents &&
    decide (s.firstIdx + s.sents.length ≤ U64)

/-- Suffix alignment: when the resident suffix is non-empty, its head index
equals `snapIndex` and the suffix is index-contiguous. -/
def RaftLog.Aligned (l : RaftLog) : Bool :=
  match l.entries with
  | [] => true
  | e :: rest => e.index == l.snapIndex && contigFrom e.index (e :: rest)

/-- The condition under which `Term` answers from the in-memory suffix
(`part_000` line 184-185): `i` past `stabled` and resident. -/
def RaftLog.memHit (l : RaftLog) (i : Nat) : Bool :=
  match l.entries with
  | [] => false
  | e0 :: rest =>
    decide (l.stabled < i) && decide (e0.index ≤ i) &&
      decide (i - e0.index < (e0 :: rest).length)

/-- One non-fatal, non-panicking Log Core call, as listed by the
reachability claim: `AppendEntries`, `maybeCompact`, `commitTo`,
`appliedTo` (`some` results only — the fatal/panic paths are excluded). -/
inductive Step : RaftLog → RaftLog → Prop where
  | append (l : RaftLog) (b : List Entry) (l2 : RaftLog) :
      l.AppendEntries b = some l2 → Step l l2
  | compact (l l2 : RaftLog) : l.maybeCompact = some l2 → Step l l2
  | commit (l : RaftLog) (c : Nat) : Step l (l.commitTo c)
  | applyTo (l : RaftLog) (i : Nat) (l2 : RaftLog) :
      l.appliedTo i = some l2 → Step l l2

/-- States reachable from `newLog` by non-fatal Log Core calls. -/
inductive Reachable : RaftLog → Prop where
  | base (s : Storage) : Reachable (newLog s)
  | step {l l2 : RaftLog} : Reachable l → Step l l2 → Reachable l2

/-- A non-fatal call whose `AppendEntries` batches additionally never end
below the current commit watermark (the restriction the amended watermark
invariant needs). -/
inductive GoodStep : RaftLog → RaftLog → Prop where
  | append (l : RaftLog) (b : List Entry) (l2 : RaftLog) :
      l.AppendEntries b = some l2 →
      (∀ e ∈ b.getLast?, l.committed ≤ e.index) → GoodStep l l2
  | compact (l l2 : RaftLog) : l.maybeCompact = some l2 → GoodStep l l2
  | commit (l : RaftLog) (c : Nat) : GoodStep l (l.commitTo c)
  | applyTo (l : RaftLog) (i : Nat) (l2 : RaftLog) :
      l.appliedTo i = some l2 → GoodStep l l2

/-- States reachable from `newLog` on a well-formed Storage by good calls. -/
inductive GoodReachable : RaftLog → Prop where
  | base (s : Storage) : s.WF = true → GoodReachable (newLog s)
  | step {l l2 : RaftLog} : GoodReachable l → GoodStep l l2 → GoodReachable l2

/-- The cross-field facts preserved by good calls: the watermark chain,
no pending snapshot, and `snapIndex` at or past Storage's first index. -/
def RaftLog.InvW (l : RaftLog) : Prop :=
  l.applied ≤ l.committed ∧ l.committed ≤ l.LastIndex ∧
    l.pendingSnapshot = none ∧ l.storage.firstIdx ≤ l.snapIndex

/-- A concrete recovered Storage: entries 1..5, hard-state commit 5 (the
spec's section-8 scenario). -/
def stor5 : Storage :=
  { commit := 5, firstIdx := 1,
    sents := [⟨1, 1, 0⟩, ⟨2, 1, 0⟩, ⟨3, 2, 0⟩, ⟨4, 2, 0⟩, ⟨5, 3, 0⟩] }

/-! ## Helper lemmas -/

theorem contig_cons {n : Nat} {e : Entry} {rest : List Entry}
    (h : contigFrom n (e :: rest) = true) :
    e.index = n ∧ contigFrom (n + 1) rest = true := by
  simpa [contigFrom, Bool.and_eq_true, beq_iff_eq] using h

theorem contig_map {xs : List Entry} :
    ∀ {n : Nat}, contigFrom n xs = true → xs.map Entry.index = List.range' n xs.length := by
  induction xs with
  | nil => intro n _; rfl
  | cons e rest ih =>
    intro n h
    obtain ⟨h1, h2⟩ := contig_cons h
    simp [List.range', ih h2, h1]

theorem contig_take {xs : List Entry} :
    ∀ {n : Nat} (k : Nat), contigFrom n xs = true → contigFrom n (xs.take k) = true := by
  induction xs with
  | nil => intro n k _; simp [contigFrom]
  | cons e rest ih =>
    intro n k h
    obtain ⟨h1, h2⟩ := contig_cons h
    cases k with
    | zero => simp [contigFrom]
    | succ k => simpa [contigFrom, h1] using ih k h2

theorem contig_drop {xs : List Entry} :
    ∀ {n : Nat} (k : Nat), contigFrom n xs = true → contigFrom (n + k) (xs.drop k) = true := by
  induction xs with
  | nil => intro n k _; simp [contigFrom]
  | cons e rest ih =>
    intro n k h
    obtain ⟨h1, h2⟩ := contig_cons h
    cases k with
    | zero => simpa [contigFrom, h1] using h2
    | succ k =>
      rw [List.drop_succ_cons]
      have := ih k h2
      have harith : n + 1 + k = n + (k + 1) := by omega
      rw [harith] at this
      exact this

theorem contig_append {xs ys : List Entry} :
    ∀ {n : Nat}, contigFrom n xs = true → contigFrom (n + xs.length) ys = true →
      contigFrom n (xs ++ ys) = true := by
  induction xs with
  | nil => intro n _ hy; simpa using hy
  | cons e rest ih =>
    intro n hx hy
    obtain ⟨h1, h2⟩ := contig_cons hx
    have hy2 : contigFrom (n + 1 + rest.length) ys = true := by
      have : n + 1 + rest.length = n + (rest.length + 1) := by omega
      rw [this]; simpa using hy
    simp [contigFrom, h1, ih h2 hy2]

theorem contig_getLast {xs : List Entry} :
    ∀ {n : Nat} {e : Entry}, contigFrom n xs = true → xs.getLast? = some e →
      e.index = n + xs.length - 1 := by
  induction xs with
  | nil => intro n e _ hl; simp at hl
  | cons e0 rest ih =>
    intro n e h hl
    obtain ⟨h1, h2⟩ := contig_cons h
    cases rest with
    | nil =>
      simp [List.getLast?] at hl
      subst hl; simpa using h1
    | cons r1 rs =>
      rw [List.getLast?_cons_cons] at hl
      have := ih h2 hl
      simp [this]; omega

theorem contig_filter_lt {xs : List Entry} :
    ∀ {n : Nat} (m : Nat), contigFrom n xs = true →
      xs.filter (fun x => decide (x.index < m)) = xs.take (m - n) := by
  induction xs with
  | nil => intro n m _; simp
  | cons e rest ih =>
    intro n m h
    obtain ⟨h1, h2⟩ := contig_cons h
    rw [List.filter_cons]
    by_cases hm : n < m
    · have hmn : m - n = (m - (n + 1)) + 1 := by omega
      rw [if_pos (show decide (e.index < m) = true by simp [h1, hm])]
      rw [ih m h2, hmn, List.take_succ_cons]
    · have hmn : m - n = 0 := by omega
      have hmn1 : m - (n + 1) = 0 := by omega
      rw [if_neg (show ¬decide (e.index < m) = true by simp [h1]; omega)]
      rw [ih m h2, hmn, hmn1]
      simp

theorem contig_filter_gt {xs : List Entry} :
    ∀ {n : Nat} (s : Nat), contigFrom n xs = true →
      xs.filter (fun x => decide (s < x.index)) = xs.drop (s + 1 - n) := by
  induction xs with
  | nil => intro n s _; simp
  | cons e rest ih =>
    intro n s h
    obtain ⟨h1, h2⟩ := contig_cons h
    rw [List.filter_cons]
    by_cases hs : s < n
    · have h0 : s + 1 - n = 0 := by omega
      have h01 : s + 1 - (n + 1) = 0 := by omega
      rw [if_pos (show decide (s < e.index) = true by simp [h1, hs])]
      rw [ih s h2, h0, h01]
      simp
    · have h0 : s + 1 - n = (s + 1 - (n + 1)) + 1 := by omega
      rw [if_neg (show ¬decide (s < e.index) = true by simp [h1]; omega)]
      rw [ih s h2, h0, List.drop_succ_cons]

theorem range1_take (k : Nat) : ∀ (s n : Nat), (List.range' s n).take k = List.range' s (min k n) := by
  induction k with
  | zero => intro s n; simp
  | succ k ih =>
    intro s n
    cases n with
    | zero => simp
    | succ n => simp [List.range', ih (s + 1) n, Nat.succ_min_succ]

theorem range1_drop (k : Nat) : ∀ (s n : Nat), (List.range' s n).drop k = List.range' (s + k) (n - k) := by
  induction k with
  | zero => intro s n; simp
  | succ k ih =>
    intro s n
    cases n with
    | zero => simp
    | succ n =>
      have : s + (k + 1) = s + 1 + k := by omega
      simp [List.range', ih (s + 1) n, this]

theorem newLog_eq (s : Storage) :
    newLog s = { storage := s, committed := s.commit, applied := u64sub s.firstIdx 1,
                 stabled := s.lastIdx, entries := s.sents,
                 pendingSnapshot := none, snapIndex := s.firstIdx } := by
  have hk : s.sents.length ≤ s.lastIdx + 1 - s.firstIdx := by
    simp only [Storage.lastIdx]; omega
  simp [newLog, Storage.entriesRange, Except.toOption, List.take_of_length_le hk]

theorem append_some {l : RaftLog} {b : List Entry} {l2 : RaftLog}
    (h : l.AppendEntries b = some l2) :
    l2.committed = l.committed ∧ l2.applied = l.applied ∧
      l2.pendingSnapshot = l.pendingSnapshot ∧ l2.storage = l.storage ∧
      l2.snapIndex = l.snapIndex ∧ b ≠ [] ∧ l2.entries.getLast? = b.getLast? := by
  obtain ⟨st, c, a, sb, en, ps, si⟩ := l
  match b with
  | [] => simp [RaftLog.AppendEntries] at h
  | e :: bs =>
    have hbs : (e :: bs).getLast?.isSome = true := List.getLast?_isSome.mpr (by simp)
    cases en with
    | nil =>
      simp only [RaftLog.AppendEntries, Option.some.injEq] at h
      subst h
      simp
    | cons e0 rest =>
      simp only [RaftLog.AppendEntries] at h
      by_cases h1 : e.index ≤ e0.index
      · rw [if_pos h1] at h
        simp only [Option.some.injEq] at h
        subst h
        simp
      · rw [if_neg h1] at h
        by_cases h2 : e.index - e0.index ≤ (e0 :: rest).length
        · rw [if_pos h2] at h
          simp only [Option.some.injEq] at h
          subst h
          refine ⟨rfl, rfl, rfl, rfl, rfl, by simp, ?_⟩
          rw [List.getLast?_append, Option.or_of_isSome hbs]
        · rw [if_neg h2] at h
          exact absurd h (by simp)

theorem lastIndex_nosnap {l : RaftLog} (hs : l.pendingSnapshot = none) :
    l.LastIndex = match l.entries.getLast? with
                  | some e => e.index
                  | none => l.storage.lastIdx := by
  cases hE : l.entries.getLast? <;> simp [RaftLog.LastIndex, hs, hE]

theorem lastIndex_of_last {l : RaftLog} {e : Entry} (hs : l.pendingSnapshot = none)
    (h : l.entries.getLast? = some e) : l.LastIndex = e.index := by
  simp [RaftLog.LastIndex, hs, h]

theorem contig_slice_map {xs : List Entry} {n : Nat} (hc : contigFrom n xs = true)
    (a bb : Nat) :
    ((xs.take bb).drop a).map Entry.index = List.range' (n + a) (min bb xs.length - a) := by
  rw [List.map_drop, List.map_take, contig_map hc, range1_take, range1_drop]

theorem findentries_nomem {l : RaftLog} {lo hi : Nat} (hcase : ¬(l.stabled + 1 < hi)) :
    l.findentries lo hi =
      some (if lo ≤ l.stabled then
              (l.storage.entriesRange lo (min hi (l.stabled + 1))).toOption.getD []
            else []) := by
  simp only [RaftLog.findentries]
  rw [if_neg hcase]

theorem findentries_mem {l : RaftLog} {lo hi : Nat} {e0 : Entry} {rest : List Entry}
    (hE : l.entries = e0 :: rest) (hcase : l.stabled + 1 < hi)
    (hab : u64sub (max (l.stabled + 1) lo) e0.index ≤ u64sub hi e0.index)
    (hblen : u64sub hi e0.index ≤ (e0 :: rest).length) :
    l.findentries lo hi =
      some ((if lo ≤ l.stabled then
               (l.storage.entriesRange lo (min hi (l.stabled + 1))).toOption.getD []
             else []) ++
            ((e0 :: rest).take (u64sub hi e0.index)).drop
              (u64sub (max (l.stabled + 1) lo) e0.index)) := by
  obtain ⟨st, c, a, sb, en, ps, si⟩ := l
  simp only at hE
  subst hE
  simp only [RaftLog.findentries]
  rw [if_pos hcase, if_pos ⟨hab, hblen⟩]

theorem entriesRange_ok {s : Storage} {lo hi : Nat} (hlo : s.firstIdx ≤ lo)
    (hhi : hi ≤ s.lastIdx + 1) :
    s.entriesRange lo hi = .ok ((s.sents.take (hi - s.firstIdx)).drop (lo - s.firstIdx)) := by
  simp only [Storage.entriesRange]
  rw [if_neg (not_lt.mpr hlo), if_neg (not_lt.mpr hhi)]

/-! ## Claim theorems -/

/-- C8: for every `lo ≤ hi` with the whole range `[lo, hi)` retained (`lo`
at or above Storage's first index, `hi ≤ LastIndex() + 1`, the part above
`stabled` resident in memory) on a well-formed two-layer state,
`findEntries(lo, hi)` succeeds and returns exactly `hi - lo` entries whose
indices are precisely `lo, lo+1, ..., hi-1`: strictly increasing, with no
duplicated and no missing index at the stabled storage/memory boundary. -/
theorem c8_findentries_range (l : RaftLog) (lo hi : Nat)
    (hsnap : l.pendingSnapshot = none)
    (hS : contigFrom l.storage.firstIdx l.storage.sents = true)
    (hf1 : 1 ≤ l.storage.firstIdx)
    (hsU : l.storage.firstIdx + l.storage.sents.length ≤ U64)
    (hM : contigFrom (headIdxL l.entries) l.entries = true)
    (hMb : headIdxL l.entries ≤ l.stabled + 1)
    (hM1 : l.stabled + 1 < hi → 1 ≤ headIdxL l.entries)
    (hres : l.stabled + 1 < hi → l.entries ≠ [])
    (hMU : headIdxL l.entries + l.entries.length ≤ U64)
    (hstab : l.stabled ≤ l.storage.lastIdx)
    (hlo : l.storage.firstIdx ≤ lo)
    (hlohi : lo ≤ hi)
    (hhi : hi ≤ l.LastIndex + 1) :
    ∃ r, l.findentries lo hi = some r ∧ r.length = hi - lo ∧
      r.map Entry.index = List.range' lo (hi - lo) := by
  have hlastS : l.storage.lastIdx = l.storage.firstIdx + l.storage.sents.length - 1 := rfl
  have hsU2 : l.storage.firstIdx + l.storage.sents.length ≤ 18446744073709551616 := hsU
  by_cases hcase : l.stabled + 1 < hi
  · obtain ⟨e0, rest, hE⟩ : ∃ e0 rest, l.entries = e0 :: rest := by
      cases hE2 : l.entries with
      | nil => exact absurd hE2 (hres hcase)
      | cons x y => exact ⟨x, y, rfl⟩
    have hhead : headIdxL l.entries = e0.index := by rw [hE]; simp [headIdxL]
    have h1e : 1 ≤ e0.index := by rw [← hhead]; exact hM1 hcase
    have hMb2 : e0.index ≤ l.stabled + 1 := hhead ▸ hMb
    have hMU2 : e0.index + (rest.length + 1) ≤ 18446744073709551616 := by
      have h9 := hMU
      rw [hE] at h9
      simpa [headIdxL] using h9
    have hMc : contigFrom e0.index (e0 :: rest) = true := by
      have h9 := hM
      rw [hE] at h9
      simpa [headIdxL] using h9
    obtain ⟨el, hel⟩ : ∃ el, (e0 :: rest).getLast? = some el :=
      Option.isSome_iff_exists.mp (List.getLast?_isSome.mpr (List.cons_ne_nil e0 rest))
    have helidx : el.index = e0.index + rest.length := by
      have h9 := contig_getLast hMc hel
      simpa using h9
    have hLI : l.LastIndex = e0.index + rest.length := by
      rw [lastIndex_of_last hsnap (by rw [hE]; exact hel), helidx]
    have hhi2 : hi ≤ e0.index + rest.length + 1 := by rw [hLI] at hhi; exact hhi
    have hst2 : l.stabled + 1 ≤ l.storage.firstIdx + l.storage.sents.length := by omega
    have hau : u64sub (max (l.stabled + 1) lo) e0.index =
        max (l.stabled + 1) lo - e0.index := by
      simp only [u64sub, U64]; omega
    have hbu : u64sub hi e0.index = hi - e0.index := by
      simp only [u64sub, U64]; omega
    have hblen2 : u64sub hi e0.index ≤ (e0 :: rest).length := by
      rw [hbu]; simp only [List.length_cons]; omega
    have hab2 : u64sub (max (l.stabled + 1) lo) e0.index ≤ u64sub hi e0.index := by
      rw [hau, hbu]; omega
    rw [findentries_mem hE hcase hab2 hblen2]
    have hmapM : (((e0 :: rest).take (u64sub hi e0.index)).drop
          (u64sub (max (l.stabled + 1) lo) e0.index)).map Entry.index =
        List.range' (max (l.stabled + 1) lo) (hi - max (l.stabled + 1) lo) := by
      rw [hau, hbu, contig_slice_map hMc]
      rw [show e0.index + (max (l.stabled + 1) lo - e0.index) = max (l.stabled + 1) lo
            by omega,
          show min (hi - e0.index) (e0 :: rest).length -
              (max (l.stabled + 1) lo - e0.index) = hi - max (l.stabled + 1) lo by
            simp only [List.length_cons]; omega]
    by_cases hlos : lo ≤ l.stabled
    · have hminhi : min hi (l.stabled + 1) = l.stabled + 1 := by omega
      have hrange := entriesRange_ok (s := l.storage) hlo
        (show l.stabled + 1 ≤ l.storage.lastIdx + 1 by omega)
      have hmap : ((if lo ≤ l.stabled then
            (l.storage.entriesRange lo (min hi (l.stabled + 1))).toOption.getD []
          else []) ++
          ((e0 :: rest).take (u64sub hi e0.index)).drop
            (u64sub (max (l.stabled + 1) lo) e0.index)).map Entry.index =
          List.range' lo (hi - lo) := by
        rw [List.map_append, hmapM, if_pos hlos, hminhi, hrange]
        show ((l.storage.sents.take (l.stabled + 1 - l.storage.firstIdx)).drop
            (lo - l.storage.firstIdx)).map Entry.index ++ _ = _
        rw [contig_slice_map hS]
        rw [show l.storage.firstIdx + (lo - l.storage.firstIdx) = lo by omega]
        rw [show min (l.stabled + 1 - l.storage.firstIdx) l.storage.sents.length -
              (lo - l.storage.firstIdx) = l.stabled + 1 - lo by omega]
        rw [show max (l.stabled + 1) lo = l.stabled + 1 by omega]
        have hra := List.range'_append lo (l.stabled + 1 - lo) (hi - (l.stabled + 1)) 1
        rw [one_mul, show lo + (l.stabled + 1 - lo) = l.stabled + 1 by omega] at hra
        rw [hra, show hi - (l.stabled + 1) + (l.stabled + 1 - lo) = hi - lo by omega]
      exact ⟨_, rfl, by have h2 := congrArg List.length hmap; simpa using h2, hmap⟩
    · have hmax2 : max (l.stabled + 1) lo = lo := by omega
      have hmap : ((if lo ≤ l.stabled then
            (l.storage.entriesRange lo (min hi (l.stabled + 1))).toOption.getD []
          else []) ++
          ((e0 :: rest).take (u64sub hi e0.index)).drop
            (u64sub (max (l.stabled + 1) lo) e0.index)).map Entry.index =
          List.range' lo (hi - lo) := by
        rw [List.map_append, hmapM, if_neg hlos, hmax2]
        simp
      exact ⟨_, rfl, by have h2 := congrArg List.length hmap; simpa using h2, hmap⟩
  · rw [findentries_nomem hcase]
    by_cases hlos : lo ≤ l.stabled
    · have hminhi : min hi (l.stabled + 1) = hi := by omega
      have hrange := entriesRange_ok (s := l.storage) hlo
        (show hi ≤ l.storage.lastIdx + 1 by omega)
      have hmap : ((l.storage.entriesRange lo (min hi (l.stabled + 1))).toOption.getD
          []).map Entry.index = List.range' lo (hi - lo) := by
        rw [hminhi, hrange]
        show ((l.storage.sents.take (hi - l.storage.firstIdx)).drop
            (lo - l.storage.firstIdx)).map Entry.index = _
        rw [contig_slice_map hS]
        rw [show l.storage.firstIdx + (lo - l.storage.firstIdx) = lo by omega]
        rw [show min (hi - l.storage.firstIdx) l.storage.sents.length -
              (lo - l.storage.firstIdx) = hi - lo by omega]
      rw [if_pos hlos]
      exact ⟨_, rfl, by have h2 := congrArg List.length hmap; simpa using h2, hmap⟩
    · rw [if_neg hlos]
      refine ⟨[], rfl, by simp; omega, ?_⟩
      rw [show hi - lo = 0 by omega]
      rfl

/-- C8 witness: with Storage `[1..5]`, suffix `[1..7]`, `stabled = 5`, the
range `[2, 8)` stitches a storage read `[2..5]` with the memory slice
`[6, 7]`: six entries with indices exactly `2, 3, 4, 5, 6, 7`. -/
theorem c8_findentries_witness :
    ∃ r, RaftLog.findentries
      { storage := stor5, committed := 5, applied := 0, stabled := 5,
        entries := [⟨1, 1, 0⟩, ⟨2, 1, 0⟩, ⟨3, 2, 0⟩, ⟨4, 2, 0⟩, ⟨5, 3, 0⟩, ⟨6, 4, 0⟩, ⟨7, 4, 0⟩],
        pendingSnapshot := none, snapIndex := 1 } 2 8 = some r ∧
      r.length = 8 - 2 ∧ r.map Entry.index = List.range' 2 (8 - 2) :=
  c8_findentries_range
    { storage := stor5, committed := 5, applied := 0, stabled := 5,
      entries := [⟨1, 1, 0⟩, ⟨2, 1, 0⟩, ⟨3, 2, 0⟩, ⟨4, 2, 0⟩, ⟨5, 3, 0⟩, ⟨6, 4, 0⟩, ⟨7, 4, 0⟩],
      pendingSnapshot := none, snapIndex := 1 } 2 8
    (by decide) (by decide) (by decide) (by decide) (by decide) (by decide)
    (by decide) (by decide) (by decide) (by decide) (by decide) (by decide) (by decide)

/-- C7: `appliedTo(0)` never changes state; for `applied ≤ i ≤ committed`,
`appliedTo(i)` sets `applied := i`; every other non-zero `i` takes the
fatal abort path (modelled as `none`, distinguishable from the recoverable
`Err` results) rather than mutating state. -/
theorem c7_appliedTo_cases (l : RaftLog) (i : Nat) :
    l.appliedTo 0 = some l ∧
    (l.applied ≤ i → i ≤ l.committed → l.appliedTo i = some { l with applied := i }) ∧
    (i ≠ 0 → (i < l.applied ∨ l.committed < i) → l.appliedTo i = none) := by
  refine ⟨by simp [RaftLog.appliedTo], ?_, ?_⟩
  · intro h1 h2
    by_cases hi : i = 0
    · subst hi
      have ha : l.applied = 0 := Nat.le_zero.mp h1
      obtain ⟨st, c, a, sb, en, ps, si⟩ := l
      have ha2 : a = 0 := ha
      subst ha2
      simp [RaftLog.appliedTo]
    · obtain ⟨st, c, a, sb, en, ps, si⟩ := l
      have h1a : a ≤ i := h1
      have h2a : i ≤ c := h2
      simp only [RaftLog.appliedTo, if_neg hi]
      rw [if_neg (by omega)]
  · intro h1 h2
    obtain ⟨st, c, a, sb, en, ps, si⟩ := l
    have h2a : i < a ∨ c < i := h2
    simp only [RaftLog.appliedTo, if_neg h1]
    rw [if_pos (by omega)]

/-- C7 witness: concrete `appliedTo` calls on the recovered log over
`stor5`: `0` is a no-op, `3 ∈ [0, 5]` applies, `7 > committed` is fatal. -/
theorem c7_appliedTo_witness :
    (newLog stor5).appliedTo 0 = some (newLog stor5) ∧
    (newLog stor5).appliedTo 3 = some { newLog stor5 with applied := 3 } ∧
    (newLog stor5).appliedTo 7 = none := by
  refine ⟨(c7_appliedTo_cases (newLog stor5) 3).1,
          (c7_appliedTo_cases (newLog stor5) 3).2.1 (by decide) (by decide),
          (c7_appliedTo_cases (newLog stor5) 7).2.2 (by decide) (by decide)⟩

/-- C6: on a Storage holding exactly entries with indices 1..5 and a
recovered commit index of 5, `newLog` yields `FirstIndex() = 1`,
`LastIndex() = 5`, `applied = 0`, `stabled = 5`, `snapIndex = firstIndex`,
and `nextEnts()` returns exactly those five entries. -/
theorem c6_newlog_scenario (es : List Entry) (h : es.map Entry.index = [1, 2, 3, 4, 5]) :
    (newLog { commit := 5, firstIdx := 1, sents := es }).FirstIndex = 1 ∧
    (newLog { commit := 5, firstIdx := 1, sents := es }).LastIndex = 5 ∧
    (newLog { commit := 5, firstIdx := 1, sents := es }).applied = 0 ∧
    (newLog { commit := 5, firstIdx := 1, sents := es }).stabled = 5 ∧
    (newLog { commit := 5, firstIdx := 1, sents := es }).snapIndex = 1 ∧
    (newLog { commit := 5, firstIdx := 1, sents := es }).nextEnts = some es := by
  cases es with
  | nil => simp at h
  | cons a es1 =>
  cases es1 with
  | nil => simp at h
  | cons b es2 =>
  cases es2 with
  | nil => simp at h
  | cons c es3 =>
  cases es3 with
  | nil => simp at h
  | cons d es4 =>
  cases es4 with
  | nil => simp at h
  | cons e es5 =>
  cases es5 with
  | cons f es6 => simp at h
  | nil =>
  obtain ⟨ia, ta, da⟩ := a
  obtain ⟨ib, tb, db⟩ := b
  obtain ⟨ic, tc, dc⟩ := c
  obtain ⟨idd, td, dd⟩ := d
  obtain ⟨ie2, te, de⟩ := e
  simp only [List.map_cons, List.map_nil, List.cons.injEq, and_true] at h
  obtain ⟨h1, h2, h3, h4, h5⟩ := h
  subst h1; subst h2; subst h3; subst h4; subst h5
  refine ⟨?_, ?_, ?_, ?_, ?_, ?_⟩ <;>
    simp only [newLog, Storage.entriesRange, Storage.lastIdx, RaftLog.nextEnts,
      RaftLog.FirstIndex, RaftLog.LastIndex, idxOff, u64sub, U64,
      Except.toOption, Option.getD] <;>
    norm_num

/-- C6 witness: the scenario instantiated at the concrete entries of
`stor5`. -/
theorem c6_newlog_scenario_witness :
    (newLog stor5).FirstIndex = 1 ∧ (newLog stor5).LastIndex = 5 ∧
    (newLog stor5).applied = 0 ∧ (newLog stor5).stabled = 5 ∧
    (newLog stor5).snapIndex = 1 ∧ (newLog stor5).nextEnts = some stor5.sents :=
  c6_newlog_scenario stor5.sents (by decide)

/-- C10: with a non-empty contiguous resident suffix and a non-empty batch
starting strictly after the first resident index, `AppendEntries` stays in
bounds (no panic, `isSome`) iff the start is at most the last resident
index + 1; past that the Go truncation slice reaches beyond the suffix
length (the `none`/panic case).  Batches starting at or before the first
resident index never hit this. -/
theorem c10_append_bounds (l : RaftLog) (e0 : Entry) (rest : List Entry) (e : Entry)
    (bs : List Entry) (hents : l.entries = e0 :: rest)
    (hcontig : contigFrom e0.index l.entries = true) :
    (e0.index < e.index →
      ((l.AppendEntries (e :: bs)).isSome = true ↔
        e.index ≤ ((e0 :: rest).getLastD ⟨0, 0, 0⟩).index + 1)) ∧
    (e.index ≤ e0.index → (l.AppendEntries (e :: bs)).isSome = true) := by
  obtain ⟨el, hel⟩ : ∃ el, (e0 :: rest).getLast? = some el :=
    Option.isSome_iff_exists.mp (List.getLast?_isSome.mpr (List.cons_ne_nil e0 rest))
  have helidx : el.index = e0.index + rest.length := by
    have := contig_getLast (hents ▸ hcontig) hel
    simpa using this
  have hlast : ((e0 :: rest).getLastD ⟨0, 0, 0⟩).index = e0.index + rest.length := by
    rw [List.getLastD_eq_getLast?, hel, Option.getD_some, helidx]
  obtain ⟨st, c, a, sb, en, ps, si⟩ := l
  simp only at hents
  subst hents
  constructor
  · intro hgt
    simp only [RaftLog.AppendEntries]
    rw [if_neg (not_le.mpr hgt)]
    by_cases hg : e.index - e0.index ≤ (e0 :: rest).length
    · rw [if_pos hg]
      simp only [Option.isSome_some, true_iff, hlast]
      simp only [List.length_cons] at hg
      omega
    · rw [if_neg hg]
      simp only [Option.isSome_none, Bool.false_eq_true, false_iff, hlast, not_le]
      simp only [List.length_cons, not_le] at hg
      omega
  · intro hle
    simp only [RaftLog.AppendEntries]
    rw [if_pos hle]
    simp

/-- C10 witness: on the recovered log over `stor5` (suffix `[1..5]`), a
batch starting at 6 is in bounds, a batch starting at 7 panics. -/
theorem c10_append_bounds_witness :
    ((newLog stor5).AppendEntries [⟨6, 9, 0⟩]).isSome = true ∧
    ¬((newLog stor5).AppendEntries [⟨7, 9, 0⟩]).isSome = true := by
  constructor
  · exact ((c10_append_bounds (newLog stor5) ⟨1, 1, 0⟩
      [⟨2, 1, 0⟩, ⟨3, 2, 0⟩, ⟨4, 2, 0⟩, ⟨5, 3, 0⟩] ⟨6, 9, 0⟩ []
      (by decide) (by decide)).1 (by decide)).mpr (by decide)
  · intro hs
    exact absurd (((c10_append_bounds (newLog stor5) ⟨1, 1, 0⟩
      [⟨2, 1, 0⟩, ⟨3, 2, 0⟩, ⟨4, 2, 0⟩, ⟨5, 3, 0⟩] ⟨7, 9, 0⟩ []
      (by decide) (by decide)).1 (by decide)).mp hs) (by decide)

/-- C4 counterexample: the claim quantifies over every batch starting
strictly after the first resident index, but with resident suffix `[1..5]`
a batch starting at 7 makes the Go truncation slice `l.entries[0:6]` reach
past the suffix length: the call panics (`none`) instead of producing the
described truncate-append state. -/
theorem c4_append_truncate_cex :
    (newLog stor5).AppendEntries [⟨7, 9, 0⟩] = none := by decide

/-- C4 (amended: the batch start must additionally be at most the last
resident index + 1, the non-panicking case of C10): for a non-empty
contiguous resident suffix and a batch starting strictly after the first
resident index, `AppendEntries` drops all resident entries with index ≥
start, appends the batch, and lowers `stabled` to `min(stabled, start-1)`. -/
theorem c4_append_truncate (l : RaftLog) (e0 : Entry) (rest : List Entry) (e : Entry)
    (bs : List Entry) (hents : l.entries = e0 :: rest)
    (hcontig : contigFrom e0.index l.entries = true)
    (hstart : e0.index < e.index)
    (hbound : e.index ≤ e0.index + (e0 :: rest).length)
    (hw : e.index < U64) :
    l.AppendEntries (e :: bs) =
      some { l with stabled := min l.stabled (e.index - 1),
                    entries := (e0 :: rest).filter (fun x => decide (x.index < e.index))
                                 ++ (e :: bs) } := by
  have hfilter : (e0 :: rest).filter (fun x => decide (x.index < e.index)) =
      (e0 :: rest).take (e.index - e0.index) :=
    contig_filter_lt e.index (hents ▸ hcontig)
  have hsub : u64sub e.index 1 = e.index - 1 := by
    have hw2 : e.index < 18446744073709551616 := hw
    simp only [u64sub, U64]
    omega
  obtain ⟨st, c, a, sb, en, ps, si⟩ := l
  simp only at hents
  subst hents
  simp only [RaftLog.AppendEntries]
  rw [if_neg (not_le.mpr hstart),
      if_pos (show e.index - e0.index ≤ (e0 :: rest).length by
        simp only [List.length_cons] at hbound ⊢; omega)]
  rw [hfilter, hsub]

/-- C4 witness: the spec's scenario — suffix `[1..5]`, batch starting at 3:
the suffix becomes `[1, 2]` followed by the batch and `stabled` drops to
`min(5, 2) = 2`. -/
theorem c4_append_truncate_witness :
    (newLog stor5).AppendEntries [⟨3, 9, 0⟩, ⟨4, 9, 0⟩] =
      some { storage := stor5, committed := 5, applied := 0, stabled := 2,
             entries := [⟨1, 1, 0⟩, ⟨2, 1, 0⟩, ⟨3, 9, 0⟩, ⟨4, 9, 0⟩],
             pendingSnapshot := none, snapIndex := 1 } := by
  have h := c4_append_truncate (newLog stor5) ⟨1, 1, 0⟩
    [⟨2, 1, 0⟩, ⟨3, 2, 0⟩, ⟨4, 2, 0⟩, ⟨5, 3, 0⟩] ⟨3, 9, 0⟩ [⟨4, 9, 0⟩]
    (by decide) (by decide) (by decide) (by decide) (by decide)
  rw [h]
  decide

/-- C5: `AppendEntries` is idempotent — if a call with batch `b` completes
without the fatal/panic path producing `l1`, calling it again with the same
batch leaves the state exactly `l1` (all of entries, stabled, committed,
applied and snapIndex). -/
theorem c5_append_idempotent (l : RaftLog) (b : List Entry) (l1 : RaftLog)
    (h : l.AppendEntries b = some l1) : l1.AppendEntries b = some l1 := by
  obtain ⟨st, c, a, sb, en, ps, si⟩ := l
  match b with
  | [] => simp [RaftLog.AppendEntries] at h
  | e :: bs =>
    cases en with
    | nil =>
      simp only [RaftLog.AppendEntries, Option.some.injEq] at h
      subst h
      simp only [RaftLog.AppendEntries]
      rw [if_pos (le_refl e.index)]
      simp only [Option.some.injEq, RaftLog.mk.injEq, and_true, true_and]
      omega
    | cons e0 rest =>
      simp only [RaftLog.AppendEntries] at h
      by_cases h1 : e.index ≤ e0.index
      · rw [if_pos h1] at h
        simp only [Option.some.injEq] at h
        subst h
        simp only [RaftLog.AppendEntries]
        rw [if_pos (le_refl e.index)]
        simp only [Option.some.injEq, RaftLog.mk.injEq, and_true, true_and]
        omega
      · rw [if_neg h1] at h
        by_cases h2 : e.index - e0.index ≤ (e0 :: rest).length
        · rw [if_pos h2] at h
          simp only [Option.some.injEq] at h
          subst h
          obtain ⟨m, hm⟩ : ∃ m, e.index - e0.index = m + 1 := ⟨e.index - e0.index - 1, by omega⟩
          have hmlen : m ≤ rest.length := by
            simp only [List.length_cons] at h2; omega
          rw [hm, List.take_succ_cons, List.cons_append]
          simp only [RaftLog.AppendEntries]
          rw [if_neg h1,
              if_pos (show e.index - e0.index ≤
                  (e0 :: (List.take m rest ++ e :: bs)).length by
                simp [List.length_take]; omega)]
          rw [hm, List.take_succ_cons,
              List.take_left' (show (List.take m rest).length = m by
                simp [List.length_take]; omega),
              List.cons_append]
          simp only [Option.some.injEq, RaftLog.mk.injEq, and_true, true_and]
          omega
        · rw [if_neg h2] at h
          exact absurd h (by simp)

theorem good_inv {l : RaftLog} (h : GoodReachable l) : l.InvW := by
  induction h with
  | base s hwf =>
    simp only [Storage.WF, Bool.and_eq_true, decide_eq_true_eq] at hwf
    obtain ⟨⟨⟨⟨h1, h2⟩, h3⟩, h4⟩, h5⟩ := hwf
    have h5b : s.firstIdx + s.sents.length ≤ 18446744073709551616 := h5
    have hap : u64sub s.firstIdx 1 = s.firstIdx - 1 := by
      simp only [u64sub, U64]; omega
    have hlastS : s.lastIdx = s.firstIdx + s.sents.length - 1 := rfl
    rw [newLog_eq]
    refine ⟨?_, ?_, rfl, le_refl _⟩
    · show u64sub s.firstIdx 1 ≤ s.commit
      omega
    · show s.commit ≤ RaftLog.LastIndex _
      cases hgl : s.sents.getLast? with
      | none =>
        have hL : (RaftLog.LastIndex
            { storage := s, committed := s.commit, applied := u64sub s.firstIdx 1,
              stabled := s.lastIdx, entries := s.sents,
              pendingSnapshot := none, snapIndex := s.firstIdx }) = s.lastIdx := by
          simp [RaftLog.LastIndex, hgl]
        rw [hL]; exact h3
      | some e =>
        have helidx : e.index = s.firstIdx + s.sents.length - 1 := contig_getLast h4 hgl
        have hL : (RaftLog.LastIndex
            { storage := s, committed := s.commit, applied := u64sub s.firstIdx 1,
              stabled := s.lastIdx, entries := s.sents,
              pendingSnapshot := none, snapIndex := s.firstIdx }) = e.index := by
          simp [RaftLog.LastIndex, hgl]
        rw [hL]; omega
  | @step l l2 hr hs ih =>
    obtain ⟨ha, hcli, hpn, hfs⟩ := ih
    cases hs with
    | append b l2 hap hlast =>
      obtain ⟨hc2, ha2, hp2, hst2, hsi2, hbne, hgl2⟩ := append_some hap
      refine ⟨?_, ?_, ?_, ?_⟩
      · rw [ha2, hc2]; exact ha
      · obtain ⟨eb, heb⟩ : ∃ eb, b.getLast? = some eb :=
          Option.isSome_iff_exists.mp (List.getLast?_isSome.mpr hbne)
        have hL2 : l2.LastIndex = eb.index :=
          lastIndex_of_last (by rw [hp2, hpn]) (by rw [hgl2, heb])
        rw [hc2, hL2]
        exact hlast eb (Option.mem_def.mpr heb)
      · rw [hp2]; exact hpn
      · rw [hst2, hsi2]; exact hfs
    | compact l2 hmc =>
      have hid : l2 = l := by
        simp only [RaftLog.maybeCompact] at hmc
        rw [if_neg (not_lt.mpr hfs)] at hmc
        exact (Option.some.inj hmc).symm
      rw [hid]
      exact ⟨ha, hcli, hpn, hfs⟩
    | commit cc =>
      simp only [RaftLog.commitTo]
      by_cases h1 : l.committed < cc
      · rw [if_pos h1]
        by_cases h2 : l.LastIndex < cc
        · rw [if_pos h2]; exact ⟨ha, hcli, hpn, hfs⟩
        · rw [if_neg h2]
          refine ⟨?_, ?_, hpn, hfs⟩
          · show l.applied ≤ cc
            omega
          · show cc ≤ ({ l with committed := cc } : RaftLog).LastIndex
            have hLL : ({ l with committed := cc } : RaftLog).LastIndex = l.LastIndex := rfl
            rw [hLL]
            omega
      · rw [if_neg h1]; exact ⟨ha, hcli, hpn, hfs⟩
    | applyTo i l2 hap =>
      simp only [RaftLog.appliedTo] at hap
      by_cases h0 : i = 0
      · rw [if_pos h0] at hap
        rw [← Option.some.inj hap]
        exact ⟨ha, hcli, hpn, hfs⟩
      · rw [if_neg h0] at hap
        by_cases h2 : l.committed < i ∨ i < l.applied
        · rw [if_pos h2] at hap
          exact absurd hap (by simp)
        · rw [if_neg h2] at hap
          push_neg at h2
          rw [← Option.some.inj hap]
          refine ⟨?_, ?_, hpn, hfs⟩
          · show i ≤ l.committed
            omega
          · show l.committed ≤ ({ l with applied := i } : RaftLog).LastIndex
            have hLL : ({ l with applied := i } : RaftLog).LastIndex = l.LastIndex := rfl
            rw [hLL]
            exact hcli

/-- C1 counterexample: from `newLog` over Storage `[1..5]` with recovered
commit 5, one non-fatal `AppendEntries` call with the batch
`[(index 1, term 9)]` — an authoritative overwrite from index 1 — reaches a
state with `committed = 5` but `LastIndex() = 1`, so the claimed invariant
`applied ≤ committed ≤ LastIndex()` fails on a reachable state. -/
theorem c1_watermarks_cex :
    Reachable { storage := stor5, committed := 5, applied := 0, stabled := 0,
                entries := [⟨1, 9, 0⟩], pendingSnapshot := none, snapIndex := 1 } ∧
    ¬(({ storage := stor5, committed := 5, applied := 0, stabled := 0,
         entries := [⟨1, 9, 0⟩], pendingSnapshot := none,
         snapIndex := 1 } : RaftLog).applied ≤
        ({ storage := stor5, committed := 5, applied := 0, stabled := 0,
           entries := [⟨1, 9, 0⟩], pendingSnapshot := none,
           snapIndex := 1 } : RaftLog).committed ∧
      ({ storage := stor5, committed := 5, applied := 0, stabled := 0,
         entries := [⟨1, 9, 0⟩], pendingSnapshot := none,
         snapIndex := 1 } : RaftLog).committed ≤
        ({ storage := stor5, committed := 5, applied := 0, stabled := 0,
           entries := [⟨1, 9, 0⟩], pendingSnapshot := none,
           snapIndex := 1 } : RaftLog).LastIndex) := by
  constructor
  · exact Reachable.step (Reachable.base stor5)
      (Step.append (newLog stor5) [⟨1, 9, 0⟩] _ (by decide))
  · decide

/-- C1 (amended: the Storage recovered from must be well-formed —
`1 ≤ firstIndex`, `firstIndex - 1 ≤ commit ≤ lastIndex`, contiguous
entries — and every `AppendEntries` batch must end at an index at or above
the current `committed`; the plain claim fails because an authoritative
overwrite batch ending below `committed` truncates `LastIndex()` below it):
every state reachable through non-fatal `AppendEntries`, `maybeCompact`,
`commitTo` and `appliedTo` calls satisfies
`applied ≤ committed ≤ LastIndex()`. -/
theorem c1_watermarks (l : RaftLog) (h : GoodReachable l) :
    l.applied ≤ l.committed ∧ l.committed ≤ l.LastIndex :=
  ⟨(good_inv h).1, (good_inv h).2.1⟩

/-- C1 witness: the watermark chain holds at the recovered state over
`stor5` (`applied = 0 ≤ committed = 5 ≤ LastIndex() = 5`). -/
theorem c1_watermarks_witness :
    (newLog stor5).applied ≤ (newLog stor5).committed ∧
    (newLog stor5).committed ≤ (newLog stor5).LastIndex :=
  c1_watermarks (newLog stor5) (GoodReachable.base stor5 (by decide))

/-- C2 counterexample: after `newLog` over `stor5` the resident suffix is
non-empty and its first entry has absolute index equal to `snapIndex` (both
are 1), not `snapIndex + 1` as the claim states. -/
theorem c2_alignment_cex :
    (newLog stor5).entries ≠ [] ∧
    headIdxL (newLog stor5).entries = 1 ∧ (newLog stor5).snapIndex = 1 ∧
    headIdxL (newLog stor5).entries ≠ (newLog stor5).snapIndex + 1 := by decide

/-- C2 (amended: the code keeps the first resident entry at absolute index
`snapIndex`, not `snapIndex + 1`): after `newLog` on a well-formed Storage
the non-empty suffix starts at `snapIndex` and is strictly contiguous;
non-panicking `maybeCompact` preserves this alignment; `AppendEntries` with
a contiguous batch preserves strict contiguity (though it can leave
`snapIndex` different from the new first resident index). -/
theorem c2_alignment (s : Storage) (l l2 : RaftLog) (b : List Entry) :
    (s.WF = true → (newLog s).Aligned = true) ∧
    (l.Aligned = true → l.maybeCompact = some l2 → l2.Aligned = true) ∧
    (contigFrom (headIdxL l.entries) l.entries = true →
      contigFrom (headIdxL b) b = true →
      l.AppendEntries b = some l2 →
      contigFrom (headIdxL l2.entries) l2.entries = true) := by
  refine ⟨?_, ?_, ?_⟩
  · intro hwf
    simp only [Storage.WF, Bool.and_eq_true, decide_eq_true_eq] at hwf
    have hcontig : contigFrom s.firstIdx s.sents = true := hwf.1.2
    rw [newLog_eq]
    cases hs : s.sents with
    | nil => rfl
    | cons e0 r =>
      rw [hs] at hcontig
      obtain ⟨h0, _⟩ := contig_cons hcontig
      simp [RaftLog.Aligned, h0, hcontig]
  · intro hal hc
    obtain ⟨st, c, a, sb, en, ps, si⟩ := l
    simp only [RaftLog.maybeCompact] at hc
    by_cases hgt : si < st.firstIdx
    · rw [if_pos hgt] at hc
      cases en with
      | nil =>
        rw [if_pos (show ([] : List Entry).isEmpty = true from rfl)] at hc
        simp only [Option.some.injEq] at hc
        subst hc
        rfl
      | cons e0 rest =>
        rw [if_neg (show ¬((e0 :: rest).isEmpty = true) by simp)] at hc
        by_cases hd : st.firstIdx - si ≤ (e0 :: rest).length
        · rw [if_pos hd] at hc
          simp only [Option.some.injEq] at hc
          subst hc
          simp only [RaftLog.Aligned, Bool.and_eq_true, beq_iff_eq] at hal
          obtain ⟨h0, hcg⟩ := hal
          have hdrop := contig_drop (st.firstIdx - si) hcg
          simp only [RaftLog.Aligned]
          cases hdd : (e0 :: rest).drop (st.firstIdx - si) with
          | nil => rfl
          | cons e1 r1 =>
            rw [hdd] at hdrop
            obtain ⟨h1, _⟩ := contig_cons hdrop
            have h1f : e1.index = st.firstIdx := by omega
            have harith : e0.index + (st.firstIdx - si) = st.firstIdx := by omega
            rw [harith] at hdrop
            simp [h1f, hdrop]
        · rw [if_neg hd] at hc
          exact absurd hc (by simp)
    · rw [if_neg hgt] at hc
      simp only [Option.some.injEq] at hc
      subst hc
      exact hal
  · intro hm hb hap
    obtain ⟨st, c, a, sb, en, ps, si⟩ := l
    match b, hb with
    | [], hb => simp [RaftLog.AppendEntries] at hap
    | e :: bs, hb =>
      cases en with
      | nil =>
        simp only [RaftLog.AppendEntries, Option.some.injEq] at hap
        subst hap
        exact hb
      | cons e0 rest =>
        simp only [headIdxL] at hm hb
        simp only [RaftLog.AppendEntries] at hap
        by_cases h1 : e.index ≤ e0.index
        · rw [if_pos h1] at hap
          simp only [Option.some.injEq] at hap
          subst hap
          simpa [headIdxL] using hb
        · rw [if_neg h1] at hap
          by_cases h2 : e.index - e0.index ≤ (e0 :: rest).length
          · rw [if_pos h2] at hap
            simp only [Option.some.injEq] at hap
            subst hap
            obtain ⟨m, hk⟩ : ∃ m, e.index - e0.index = m + 1 :=
              ⟨e.index - e0.index - 1, by omega⟩
            have hmlen : m ≤ rest.length := by
              simp only [List.length_cons] at h2; omega
            have hctake : contigFrom e0.index ((e0 :: rest).take (m + 1)) = true :=
              contig_take (m + 1) hm
            rw [List.take_succ_cons] at hctake
            have hlen : (e0 :: List.take m rest).length = m + 1 := by
              simp [List.length_take]; omega
            have hb2 : contigFrom (e0.index + (e0 :: List.take m rest).length)
                (e :: bs) = true := by
              rw [hlen, show e0.index + (m + 1) = e.index by omega]
              exact hb
            have happ := contig_append hctake hb2
            rw [List.cons_append] at happ
            rw [hk, List.take_succ_cons, List.cons_append]
            simpa [headIdxL] using happ
          · rw [if_neg h2] at hap
            exact absurd hap (by simp)

/-- C2 witness: alignment after `newLog` over `stor5`; alignment preserved
by a compaction that drops the prefix below Storage's first index 3; and
contiguity of the suffix after the scenario append of a batch at index 3. -/
theorem c2_alignment_witness :
    (newLog stor5).Aligned = true ∧
    RaftLog.Aligned
      { storage := { commit := 5, firstIdx := 3, sents := [⟨3, 2, 0⟩, ⟨4, 2, 0⟩, ⟨5, 3, 0⟩] },
        committed := 5, applied := 2, stabled := 5,
        entries := [⟨3, 1, 0⟩, ⟨4, 1, 0⟩, ⟨5, 1, 0⟩], pendingSnapshot := none,
        snapIndex := 3 } = true ∧
    contigFrom
      (headIdxL [⟨1, 1, 0⟩, ⟨2, 1, 0⟩, ⟨3, 9, 0⟩]) [⟨1, 1, 0⟩, ⟨2, 1, 0⟩, ⟨3, 9, 0⟩] = true := by
  refine ⟨(c2_alignment stor5 (newLog stor5) (newLog stor5) []).1 (by decide), ?_, ?_⟩
  · exact (c2_alignment stor5
      { storage := { commit := 5, firstIdx := 3, sents := [⟨3, 2, 0⟩, ⟨4, 2, 0⟩, ⟨5, 3, 0⟩] },
        committed := 5, applied := 2, stabled := 5,
        entries := [⟨1, 1, 0⟩, ⟨2, 1, 0⟩, ⟨3, 1, 0⟩, ⟨4, 1, 0⟩, ⟨5, 1, 0⟩],
        pendingSnapshot := none, snapIndex := 1 }
      { storage := { commit := 5, firstIdx := 3, sents := [⟨3, 2, 0⟩, ⟨4, 2, 0⟩, ⟨5, 3, 0⟩] },
        committed := 5, applied := 2, stabled := 5,
        entries := [⟨3, 1, 0⟩, ⟨4, 1, 0⟩, ⟨5, 1, 0⟩], pendingSnapshot := none,
        snapIndex := 3 } []).2.1 (by decide) (by decide)
  · exact (c2_alignment stor5 (newLog stor5)
      { storage := stor5, committed := 5, applied := 0, stabled := 2,
        entries := [⟨1, 1, 0⟩, ⟨2, 1, 0⟩, ⟨3, 9, 0⟩], pendingSnapshot := none,
        snapIndex := 1 } [⟨3, 9, 0⟩]).2.2 (by decide) (by decide) (by decide)

theorem term_eq_storage {l : RaftLog} {i : Nat} (hle : i ≤ l.LastIndex)
    (hm : l.memHit i = false) : l.Term i = l.termStorage i := by
  obtain ⟨st, c, a, sb, en, ps, si⟩ := l
  cases en with
  | nil =>
    simp only [RaftLog.Term]
    rw [if_neg (not_lt.mpr hle)]
  | cons e0 rest =>
    have hm2 : ¬(sb < i ∧ e0.index ≤ i ∧ i - e0.index < (e0 :: rest).length) := by
      intro hx
      have ht : RaftLog.memHit ⟨st, c, a, sb, e0 :: rest, ps, si⟩ i = true := by
        simp only [RaftLog.memHit, Bool.and_eq_true, decide_eq_true_eq, List.length_cons]
        exact ⟨⟨hx.1, hx.2.1⟩, by simpa using hx.2.2⟩
      rw [ht] at hm
      exact absurd hm (by simp)
    simp only [RaftLog.Term]
    rw [if_neg (not_lt.mpr hle), dif_neg hm2]

/-- C3: `Term(i)` fails with `OutOfRange` past `LastIndex()`; answers
unstable resident indices from memory; on `Unavailable` from Storage with a
pending snapshot it returns the snapshot term at the snapshot index and
`Compacted` at any other index; with no pending snapshot, indices below
`Storage.FirstIndex()` yield `Compacted`. -/
theorem c3_term_cases (l : RaftLog) (i : Nat) (sp : Snapshot) :
    (l.LastIndex < i → l.Term i = .error .OutOfRange) ∧
    (i ≤ l.LastIndex → l.memHit i = true →
      ∀ ex ∈ l.entries[i - l.FirstIndex]?, l.Term i = .ok ex.term) ∧
    (i ≤ l.LastIndex → l.memHit i = false → l.storage.term i = .error .Unavailable →
      l.pendingSnapshot = some sp → sp.index ≠ 0 → i = sp.index →
      l.Term i = .ok sp.term) ∧
    (i ≤ l.LastIndex → l.memHit i = false → l.storage.term i = .error .Unavailable →
      l.pendingSnapshot = some sp → sp.index ≠ 0 → i ≠ sp.index →
      l.Term i = .error .Compacted) ∧
    (i ≤ l.LastIndex → l.memHit i = false → l.pendingSnapshot = none →
      i < l.storage.firstIdx → l.Term i = .error .Compacted) := by
  refine ⟨?_, ?_, ?_, ?_, ?_⟩
  · intro hgt
    simp only [RaftLog.Term]
    rw [if_pos hgt]
  · intro hle hm
    obtain ⟨st, c, a, sb, en, ps, si⟩ := l
    cases en with
    | nil => simp [RaftLog.memHit] at hm
    | cons e0 rest =>
      have hm2 : sb < i ∧ e0.index ≤ i ∧ i - e0.index < (e0 :: rest).length := by
        have h3 := hm
        simp only [RaftLog.memHit, Bool.and_eq_true, decide_eq_true_eq] at h3
        exact ⟨h3.1.1, h3.1.2, h3.2⟩
      intro ex hex
      rw [Option.mem_def] at hex
      have hfi : RaftLog.FirstIndex ⟨st, c, a, sb, e0 :: rest, ps, si⟩ = e0.index := rfl
      rw [hfi, List.getElem?_eq_getElem hm2.2.2] at hex
      simp only [Option.some.injEq] at hex
      subst hex
      simp only [RaftLog.Term]
      rw [if_neg (not_lt.mpr hle), dif_pos hm2]
      simp [List.get_eq_getElem]
  · intro hle hm hU hsp hsp0 hi
    rw [term_eq_storage hle hm]
    simp only [RaftLog.termStorage, hU, hsp]
    rw [if_neg (by simp [hsp0]), if_pos (by simp [hi])]
  · intro hle hm hU hsp hsp0 hi
    rw [term_eq_storage hle hm]
    simp only [RaftLog.termStorage, hU, hsp]
    rw [if_neg (by simp [hsp0]), if_neg (by simp [hi])]
  · intro hle hm hps hlt
    have hsc : l.storage.term i = .error .Compacted := by
      simp only [Storage.term]
      rw [if_pos hlt]
    rw [term_eq_storage hle hm]
    simp only [RaftLog.termStorage, hsc]

/-- C3 witness: concrete `Term` calls covering every case: out of range on
the recovered `stor5` log; a memory hit on an unstable resident index; the
pending-snapshot translation of `Unavailable` at and away from the snapshot
index; and `Compacted` below `Storage.FirstIndex()` with no snapshot. -/
theorem c3_term_witness :
    (newLog stor5).Term 9 = .error .OutOfRange ∧
    RaftLog.Term
      { storage := stor5, committed := 5, applied := 0, stabled := 5,
        entries := [⟨1, 1, 0⟩, ⟨2, 1, 0⟩, ⟨3, 2, 0⟩, ⟨4, 2, 0⟩, ⟨5, 3, 0⟩, ⟨6, 4, 0⟩, ⟨7, 4, 0⟩],
        pendingSnapshot := none, snapIndex := 1 } 7 = .ok 4 ∧
    RaftLog.Term
      { storage := stor5, committed := 5, applied := 0, stabled := 5,
        entries := [], pendingSnapshot := some ⟨10, 7⟩, snapIndex := 6 } 10 = .ok 7 ∧
    RaftLog.Term
      { storage := stor5, committed := 5, applied := 0, stabled := 5,
        entries := [], pendingSnapshot := some ⟨10, 7⟩, snapIndex := 6 } 8 =
      .error .Compacted ∧
    RaftLog.Term
      { storage := { commit := 5, firstIdx := 3, sents := [⟨3, 2, 0⟩, ⟨4, 2, 0⟩, ⟨5, 3, 0⟩] },
        committed := 5, applied := 2, stabled := 5,
        entries := [], pendingSnapshot := none, snapIndex := 3 } 2 =
      .error .Compacted := by
  refine ⟨?_, ?_, ?_, ?_, ?_⟩
  · exact (c3_term_cases (newLog stor5) 9 ⟨0, 0⟩).1 (by decide)
  · have h := (c3_term_cases
      { storage := stor5, committed := 5, applied := 0, stabled := 5,
        entries := [⟨1, 1, 0⟩, ⟨2, 1, 0⟩, ⟨3, 2, 0⟩, ⟨4, 2, 0⟩, ⟨5, 3, 0⟩, ⟨6, 4, 0⟩, ⟨7, 4, 0⟩],
        pendingSnapshot := none, snapIndex := 1 } 7 ⟨0, 0⟩).2.1
      (by decide) (by decide) ⟨7, 4, 0⟩ (by simp only [Option.mem_def]; decide)
    exact h.trans (by decide)
  · exact (c3_term_cases
      { storage := stor5, committed := 5, applied := 0, stabled := 5,
        entries := [], pendingSnapshot := some ⟨10, 7⟩, snapIndex := 6 } 10 ⟨10, 7⟩).2.2.1
      (by decide) (by decide) (by decide) (by decide) (by decide) (by decide)
  · exact (c3_term_cases
      { storage := stor5, committed := 5, applied := 0, stabled := 5,
        entries := [], pendingSnapshot := some ⟨10, 7⟩, snapIndex := 6 } 8 ⟨10, 7⟩).2.2.2.1
      (by decide) (by decide) (by decide) (by decide) (by decide) (by decide)
  · exact (c3_term_cases
      { storage := { commit := 5, firstIdx := 3, sents := [⟨3, 2, 0⟩, ⟨4, 2, 0⟩, ⟨5, 3, 0⟩] },
        committed := 5, applied := 2, stabled := 5,
        entries := [], pendingSnapshot := none, snapIndex := 3 } 2 ⟨0, 0⟩).2.2.2.2
      (by decide) (by decide) (by decide) (by decide)

/-- C9: `unstableEntries()` never panics (it is total): when the uint64
slice bound `stabled - FirstIndex() + 1` exceeds the suffix length it
returns the empty result (the defensive check; the Go `< 0` half of the
check is vacuous for unsigned values); when the bound is in range it
returns the suffix from that offset, which under the contiguity invariant
is exactly the suffix entries with index > `stabled`. -/
theorem c9_unstable_entries (l : RaftLog) :
    (l.entries.length < idxOff l.stabled l.FirstIndex → l.unstableEntries = []) ∧
    (idxOff l.stabled l.FirstIndex ≤ l.entries.length →
      l.unstableEntries = l.entries.drop (idxOff l.stabled l.FirstIndex)) ∧
    (contigFrom (headIdxL l.entries) l.entries = true →
      1 ≤ headIdxL l.entries → headIdxL l.entries ≤ l.stabled + 1 → l.stabled < U64 →
      l.unstableEntries = l.entries.filter (fun x => decide (l.stabled < x.index))) := by
  obtain ⟨st, c, a, sb, en, ps, si⟩ := l
  cases en with
  | nil =>
    refine ⟨fun _ => rfl, fun _ => by simp [RaftLog.unstableEntries], fun _ h1 _ _ => ?_⟩
    simp [headIdxL] at h1
  | cons e0 rest =>
    refine ⟨?_, ?_, ?_⟩
    · intro hk
      simp only [RaftLog.unstableEntries]
      rw [if_pos hk]
    · intro hk
      simp only [RaftLog.unstableEntries]
      rw [if_neg (not_lt.mpr hk)]
    · intro hc h1 h2 hU
      simp only [headIdxL] at hc h1 h2
      have hU2 : sb < 18446744073709551616 := hU
      have hk : idxOff sb (RaftLog.FirstIndex ⟨st, c, a, sb, e0 :: rest, ps, si⟩) =
          sb + 1 - e0.index := by
        simp only [RaftLog.FirstIndex, idxOff, u64sub, U64]
        omega
      have hfil : (e0 :: rest).filter (fun x => decide (sb < x.index)) =
          (e0 :: rest).drop (sb + 1 - e0.index) := contig_filter_gt sb hc
      simp only [RaftLog.unstableEntries, hk]
      by_cases hcase : (e0 :: rest).length < sb + 1 - e0.index
      · rw [if_pos hcase, hfil, List.drop_eq_nil_of_le (by omega)]
      · rw [if_neg hcase, hfil]

/-- C9 witness: with suffix `[1..7]` and `stabled = 5`, the unstable
entries are exactly those with index 6 and 7; with suffix `[10]` and
`stabled = 3` the wrapped uint64 bound is out of range and the result is
empty. -/
theorem c9_unstable_entries_witness :
    RaftLog.unstableEntries
      { storage := stor5, committed := 5, applied := 0, stabled := 5,
        entries := [⟨1, 1, 0⟩, ⟨2, 1, 0⟩, ⟨3, 2, 0⟩, ⟨4, 2, 0⟩, ⟨5, 3, 0⟩, ⟨6, 4, 0⟩, ⟨7, 4, 0⟩],
        pendingSnapshot := none, snapIndex := 1 } = [⟨6, 4, 0⟩, ⟨7, 4, 0⟩] ∧
    RaftLog.unstableEntries
      { storage := stor5, committed := 5, applied := 0, stabled := 3,
        entries := [⟨10, 2, 0⟩], pendingSnapshot := none, snapIndex := 1 } = [] := by
  constructor
  · have h := (c9_unstable_entries
      { storage := stor5, committed := 5, applied := 0, stabled := 5,
        entries := [⟨1, 1, 0⟩, ⟨2, 1, 0⟩, ⟨3, 2, 0⟩, ⟨4, 2, 0⟩, ⟨5, 3, 0⟩, ⟨6, 4, 0⟩, ⟨7, 4, 0⟩],
        pendingSnapshot := none, snapIndex := 1 }).2.2
      (by decide) (by decide) (by decide) (by decide)
    rw [h]
    decide
  · exact (c9_unstable_entries
      { storage := stor5, committed := 5, applied := 0, stabled := 3,
        entries := [⟨10, 2, 0⟩], pendingSnapshot := none, snapIndex := 1 }).1 (by decide)

/-- C5 witness: appending the batch `[3]` to the recovered log over `stor5`
once reaches the state below; applying the same batch again returns exactly
that state. -/
theorem c5_append_idempotent_witness :
    RaftLog.AppendEntries
      { storage := stor5, committed := 5, applied := 0, stabled := 2,
        entries := [⟨1, 1, 0⟩, ⟨2, 1, 0⟩, ⟨3, 9, 0⟩],
        pendingSnapshot := none, snapIndex := 1 } [⟨3, 9, 0⟩] =
    some { storage := stor5, committed := 5, applied := 0, stabled := 2,
           entries := [⟨1, 1, 0⟩, ⟨2, 1, 0⟩, ⟨3, 9, 0⟩],
           pendingSnapshot := none, snapIndex := 1 } :=
  c5_append_idempotent (newLog stor5) [⟨3, 9, 0⟩] _ (by decide)

end Tkv
